import Mathlib

/-!
Verification of the unipi-neuron board layer (Board.js, old and new version).

The JavaScript source is shallowly embedded: strings become `List Char`,
the mutable `this.state` / `this.counter` objects become functions
`List Char → Option JVal`, JavaScript numbers that can be `NaN` become
`JVal`, and `undefined` array accesses become `Option`.
-/

/-- A JavaScript numeric value as it can end up in the state cache:
an ordinary (non-negative integer) number or `NaN`. -/
inductive JVal where
  | num (n : Nat)
  | nan
  deriving DecidableEq, Repr

/-- The mutable `this.state` / `this.counter` object: key to value, absent = `undefined`. -/
def StateMap : Type := List Char → Option JVal

/-- Object property assignment `obj[id] = v`. -/
def updateMap (st : StateMap) (id : List Char) (v : JVal) : StateMap :=
  fun k => if k = id then some v else st k

/-- The empty object `{}`. -/
def emptyMap : StateMap := fun _ => none

theorem updateMap_self (st : StateMap) (id : List Char) (v : JVal) :
    updateMap st id v id = some v := by
  simp [updateMap]

theorem updateMap_other (st : StateMap) (id k : List Char) (v : JVal) (h : k ≠ id) :
    updateMap st id v k = st k := by
  simp [updateMap, h]

/-! ### Decimal digits and `toString` for numbers -/

/-- The character for a single decimal digit. -/
def digitChar : Nat → Char
  | 0 => '0' | 1 => '1' | 2 => '2' | 3 => '3' | 4 => '4'
  | 5 => '5' | 6 => '6' | 7 => '7' | 8 => '8' | _ => '9'

/-- The numeric value of a decimal digit character, `none` for non-digits. -/
def digitVal (c : Char) : Option Nat :=
  if '0' ≤ c ∧ c ≤ '9' then some (c.toNat - 48) else none

/-- Big-endian decimal digits of `n` (empty for 0), with explicit fuel so that the
recursion is structural. -/
def natDigitsAux : Nat → Nat → List Char
  | 0, _ => []
  | fuel + 1, n => if n = 0 then [] else natDigitsAux fuel (n / 10) ++ [digitChar (n % 10)]

/-- JavaScript `n.toString()` for a non-negative integer `n`, as a character list. -/
def natDigits (n : Nat) : List Char :=
  if n = 0 then ['0'] else natDigitsAux n n

/-- Fold one decimal digit character onto a partial parse (`none` = `NaN`). -/
def parseDecStep (acc : Option Nat) (c : Char) : Option Nat :=
  match acc, digitVal c with
  | some a, some d => some (10 * a + d)
  | _, _ => none

/-- Parse a run of decimal digit characters starting from `acc`. -/
def parseDecAcc (l : List Char) (acc : Option Nat) : Option Nat :=
  l.foldl parseDecStep acc

/-- JavaScript `Number(s)` restricted to the strings this program produces:
`""` is 0, a nonempty all-digit string is its value, anything else is `NaN` (`none`). -/
def jsStrToNum (l : List Char) : Option Nat :=
  if l.isEmpty then some 0 else parseDecAcc l (some 0)

theorem parseDecAcc_append (l₁ l₂ : List Char) (acc : Option Nat) :
    parseDecAcc (l₁ ++ l₂) acc = parseDecAcc l₂ (parseDecAcc l₁ acc) := by
  simp [parseDecAcc, List.foldl_append]

theorem parseDecAcc_natDigitsAux (fuel : Nat) :
    ∀ n, n ≤ fuel → parseDecAcc (natDigitsAux fuel n) (some 0) = some (0 * 1 + n) := by
  induction fuel with
  | zero =>
    intro n hn
    interval_cases n
    simp [natDigitsAux, parseDecAcc]
  | succ fuel ih =>
    intro n hn
    by_cases h0 : n = 0
    · simp [natDigitsAux, h0, parseDecAcc]
    · have hdiv : n / 10 ≤ fuel := by
        have h1 : n / 10 < n := Nat.div_lt_self (Nat.pos_of_ne_zero h0) (by omega)
        omega
      have hpre := ih (n / 10) hdiv
      have hmod : n % 10 < 10 := Nat.mod_lt _ (by omega)
      simp only [natDigitsAux, h0, if_false, parseDecAcc_append]
      rw [hpre]
      have hd : digitVal (digitChar (n % 10)) = some (n % 10) := by
        interval_cases h : n % 10 <;> decide
      simp [parseDecAcc, parseDecStep, hd]
      omega

theorem natDigitsAux_ne_nil (fuel n : Nat) (hn : 0 < n) (hf : n ≤ fuel) :
    natDigitsAux fuel n ≠ [] := by
  cases fuel with
  | zero => omega
  | succ fuel =>
    have h0 : n ≠ 0 := by omega
    simp [natDigitsAux, h0]

/-- `Number(n.toString()) = n`: parsing the decimal rendering gives the number back. -/
theorem jsStrToNum_natDigits (n : Nat) : jsStrToNum (natDigits n) = some n := by
  by_cases h0 : n = 0
  · subst h0
    decide
  · have hne := natDigitsAux_ne_nil n n (Nat.pos_of_ne_zero h0) le_rfl
    have hp := parseDecAcc_natDigitsAux n n le_rfl
    simp only [natDigits, h0, if_false, jsStrToNum]
    rw [if_neg (by simpa [List.isEmpty_iff] using hne)]
    simpa using hp

/-- `toString` is injective on numbers. -/
theorem natDigits_injective : Function.Injective natDigits := by
  intro a b h
  have ha := jsStrToNum_natDigits a
  have hb := jsStrToNum_natDigits b
  rw [h, hb] at ha
  exact (Option.some.injEq _ _).mp ha.symm

/-- The point id `pre + '.' + n` built by `storeState` and `updateCount`. -/
def mkId (pre : List Char) (n : Nat) : List Char :=
  pre ++ '.' :: natDigits n

theorem mkId_inj (pre : List Char) {a b : Nat} (h : mkId pre a = mkId pre b) : a = b := by
  unfold mkId at h
  have h2 := List.append_cancel_left h
  exact natDigits_injective (List.cons_injective h2)

/-! ### The register codec: `dec2bin` and its bit semantics

`dec2bin(dec)` in both Board.js versions is
`('0000000000000000' + dec.toString(2)).slice(-16)`: the binary rendering of the
word, left-padded with zeros, cut to its last 16 characters (MSB first).
`storeState`/`store` then split and reverse it, giving an LSB-first array.
The binary digit characters are modelled as the digits 0/1 themselves
(`parseInt` of such a character is the digit). -/

/-- Big-endian binary digits of `n` (empty for 0): `n.toString(2)` without the
`n = 0` special case, with explicit fuel so the recursion is structural. -/
def toBinAux : Nat → Nat → List Nat
  | 0, _ => []
  | fuel + 1, n => if n = 0 then [] else toBinAux fuel (n / 2) ++ [n % 2]

/-- JavaScript `n.toString(2)` as a list of binary digits, MSB first. -/
def jsBin (n : Nat) : List Nat :=
  if n = 0 then [0] else toBinAux n n

/-- `('0000000000000000' + bin).slice(-16)`: the 16 MSB-first binary digits used by
`dec2bin`. -/
def dec2bin (n : Nat) : List Nat :=
  let padded := List.replicate 16 0 ++ jsBin n
  padded.drop (padded.length - 16)

/-- `dec2bin(n).split('').reverse()`: the LSB-first bit array used by `storeState`. -/
def dec2binArr (n : Nat) : List Nat :=
  (dec2bin n).reverse

/-- The mathematical LSB-first `k`-bit decomposition of `v`, the reference point for
all bit-order statements. -/
def bitsLE : Nat → Nat → List Nat
  | 0, _ => []
  | k + 1, v => v % 2 :: bitsLE k (v / 2)

/-- Value of an LSB-first binary digit list. -/
def evalLE : List Nat → Nat
  | [] => 0
  | b :: t => b + 2 * evalLE t

/-- `parseInt(s, 2)` on a MSB-first binary digit list. -/
def parseBin (l : List Nat) : Nat :=
  l.foldl (fun a b => 2 * a + b) 0

theorem bitsLE_length (k v : Nat) : (bitsLE k v).length = k := by
  induction k generalizing v with
  | zero => rfl
  | succ k ih => simp [bitsLE, ih]

theorem bitsLE_zero (k : Nat) : bitsLE k 0 = List.replicate k 0 := by
  induction k with
  | zero => rfl
  | succ k ih => simp [bitsLE, ih, List.replicate_succ]

theorem evalLE_bitsLE (k : Nat) : ∀ v, evalLE (bitsLE k v) = v % 2 ^ k := by
  induction k with
  | zero => intro v; simp [bitsLE, evalLE, Nat.mod_one]
  | succ k ih =>
    intro v
    simp only [bitsLE, evalLE, ih]
    rw [Nat.pow_succ, mul_comm (2 ^ k) 2, Nat.mod_mul]

theorem bitsLE_take (k n v : Nat) (h : k ≤ n) : (bitsLE n v).take k = bitsLE k v := by
  induction n generalizing k v with
  | zero =>
    interval_cases k
    simp [bitsLE]
  | succ n ih =>
    cases k with
    | zero => simp [bitsLE]
    | succ k => simp [bitsLE, ih k (v / 2) (by omega)]

theorem bitsLE_drop (k n v : Nat) : (bitsLE n v).drop k = bitsLE (n - k) (v / 2 ^ k) := by
  induction k generalizing n v with
  | zero => simp
  | succ k ih =>
    cases n with
    | zero => simp [bitsLE]
    | succ n =>
      simp only [bitsLE, List.drop_succ_cons, ih]
      congr 1
      · omega
      · rw [Nat.div_div_eq_div_mul, Nat.pow_succ]
        ring_nf

theorem bitsLE_getD (n v i : Nat) (h : i < n) :
    (bitsLE n v).getD i 0 = v / 2 ^ i % 2 := by
  induction i generalizing n v with
  | zero =>
    cases n with
    | zero => omega
    | succ n => simp [bitsLE]
  | succ i ih =>
    cases n with
    | zero => omega
    | succ n =>
      simp only [bitsLE, List.getD_cons_succ]
      rw [ih n (v / 2) (by omega), Nat.div_div_eq_div_mul, Nat.pow_succ]
      ring_nf

theorem parseBin_reverse (l : List Nat) : parseBin l.reverse = evalLE l := by
  induction l with
  | nil => rfl
  | cons b t ih =>
    simp only [parseBin, List.reverse_cons, List.foldl_append, List.foldl_cons,
      List.foldl_nil, evalLE]
    simp only [parseBin] at ih
    rw [ih]
    omega

theorem toBinAux_padded (k : Nat) : ∀ fuel n, n ≤ fuel → n < 2 ^ k →
    List.replicate (k - (toBinAux fuel n).length) 0 ++ toBinAux fuel n =
      (bitsLE k n).reverse := by
  induction k with
  | zero =>
    intro fuel n _ h2
    interval_cases n
    cases fuel <;> simp [toBinAux, bitsLE]
  | succ k ih =>
    intro fuel n hf h2
    by_cases h0 : n = 0
    · subst h0
      have ht : ∀ f, toBinAux f 0 = [] := by intro f; cases f <;> simp [toBinAux]
      rw [ht]
      simp [bitsLE_zero, List.reverse_replicate]
    · cases fuel with
      | zero => omega
      | succ fuel =>
        have hdiv : n / 2 ≤ fuel := by
          have h1 : n / 2 < n := Nat.div_lt_self (Nat.pos_of_ne_zero h0) one_lt_two
          omega
        have hdiv2 : n / 2 < 2 ^ k := by
          rw [Nat.div_lt_iff_lt_mul (by omega)]
          rw [Nat.pow_succ] at h2
          omega
        have hpre := ih fuel (n / 2) hdiv hdiv2
        simp only [toBinAux, h0, if_false, List.length_append, List.length_cons,
          List.length_nil, bitsLE, List.reverse_cons]
        rw [← hpre]
        rw [show k + 1 - ((toBinAux fuel (n / 2)).length + (0 + 1)) =
          k - (toBinAux fuel (n / 2)).length from by omega]
        simp [List.append_assoc]

theorem jsBin_length_le (n : Nat) (h : n < 2 ^ 16) : (jsBin n).length ≤ 16 := by
  by_cases h0 : n = 0
  · simp [jsBin, h0]
  · have hp := toBinAux_padded 16 n n le_rfl h
    have := congrArg List.length hp
    simp only [List.length_append, List.length_replicate, List.length_reverse,
      bitsLE_length] at this
    simp only [jsBin, h0, if_false]
    omega

/-- For a 16-bit word, the padded-and-sliced `dec2bin` string is exactly the
reverse of the LSB-first 16-bit decomposition. -/
theorem dec2bin_eq (n : Nat) (h : n < 2 ^ 16) : dec2bin n = (bitsLE 16 n).reverse := by
  by_cases h0 : n = 0
  · subst h0
    decide
  · have hlen := jsBin_length_le n h
    unfold dec2bin
    simp only [List.length_append, List.length_replicate]
    rw [show 16 + (jsBin n).length - 16 = (jsBin n).length from by omega]
    rw [List.drop_append_eq_append_drop, List.drop_replicate]
    simp only [List.length_replicate]
    rw [show (jsBin n).length - 16 = 0 from by omega, List.drop_zero]
    have hp := toBinAux_padded 16 n n le_rfl h
    simpa [jsBin, h0] using hp

/-- The LSB-first array `storeState` iterates over is the 16-bit LSB-first
decomposition of the word. -/
theorem dec2binArr_eq (n : Nat) (h : n < 2 ^ 16) : dec2binArr n = bitsLE 16 n := by
  rw [dec2binArr, dec2bin_eq n h, List.reverse_reverse]

theorem dec2bin_length (n : Nat) : (dec2bin n).length = 16 := by
  have hjs : (jsBin n).length ≥ 1 := by
    by_cases h0 : n = 0
    · simp [jsBin, h0]
    · have := natDigitsAux_ne_nil
      simp only [jsBin, h0, if_false]
      cases hc : toBinAux n n with
      | nil =>
        exfalso
        cases n with
        | zero => exact h0 rfl
        | succ m => simp [toBinAux, h0] at hc
      | cons a t => simp
  unfold dec2bin
  simp only [List.length_drop, List.length_append, List.length_replicate]
  omega

theorem toBinAux_mem_le_one : ∀ fuel n b, b ∈ toBinAux fuel n → b ≤ 1 := by
  intro fuel
  induction fuel with
  | zero => intro n b hb; simp [toBinAux] at hb
  | succ fuel ih =>
    intro n b hb
    by_cases h0 : n = 0
    · simp [toBinAux, h0] at hb
    · simp only [toBinAux, h0, if_false, List.mem_append, List.mem_singleton] at hb
      rcases hb with hb | hb
      · exact ih _ _ hb
      · subst hb; omega

theorem dec2binArr_mem_le_one (n b : Nat) (hb : b ∈ dec2binArr n) : b ≤ 1 := by
  have h1 : b ∈ dec2bin n := List.mem_reverse.mp hb
  simp only [dec2bin] at h1
  have hmem : b ∈ List.replicate 16 0 ++ jsBin n := List.mem_of_mem_drop h1
  rcases List.mem_append.mp hmem with hm | hm
  · have := List.eq_of_mem_replicate hm
    omega
  · by_cases h0 : n = 0
    · simp [jsBin, h0] at hm
      omega
    · simp only [jsBin, h0, if_false] at hm
      exact toBinAux_mem_le_one n n b hm

/-! ### JavaScript string splitting -/

/-- `s.split(sep)` for a one-character separator: JavaScript semantics,
`"".split(sep) = [""]`. -/
def splitOnChar (sep : Char) : List Char → List (List Char)
  | [] => [[]]
  | c :: t =>
    if c = sep then [] :: splitOnChar sep t
    else
      match splitOnChar sep t with
      | [] => [[c]]
      | h :: r => (c :: h) :: r

theorem splitOnChar_ne_nil (sep : Char) (l : List Char) : splitOnChar sep l ≠ [] := by
  induction l with
  | nil => simp [splitOnChar]
  | cons c t ih =>
    by_cases hc : c = sep
    · simp [splitOnChar, hc]
    · simp only [splitOnChar, hc, if_false]
      cases h : splitOnChar sep t <;> simp

theorem splitOnChar_no_sep (sep : Char) (l : List Char) (h : sep ∉ l) :
    splitOnChar sep l = [l] := by
  induction l with
  | nil => rfl
  | cons c t ih =>
    simp only [List.mem_cons, not_or] at h
    have hc : c ≠ sep := fun hh => h.1 hh.symm
    simp [splitOnChar, hc, ih h.2]

theorem splitOnChar_first (sep : Char) (a b : List Char) (ha : sep ∉ a) :
    splitOnChar sep (a ++ sep :: b) = a :: splitOnChar sep b := by
  induction a with
  | nil => simp [splitOnChar]
  | cons c t ih =>
    simp only [List.mem_cons, not_or] at ha
    have hc : c ≠ sep := fun hh => ha.1 hh.symm
    rw [List.cons_append, splitOnChar, if_neg hc, ih ha.2]

/-- `s.substr(s.length - 1, 1)`: the last character of a string as a one-character
string (empty for the empty string). -/
def substrLast (l : List Char) : List Char :=
  match l.getLast? with
  | some c => [c]
  | none => []

/-! ### The Board: constants and methods, translated from the newer source
(`src/unnamed/part_000`) and, for `store`, from the older `src/Board.js`. -/

namespace Board

/-- Modbus exceptions codes (`MODUS_ERRNO` in the source). -/
def MODUS_ERRNO : Nat → Option (List Char)
  | 0x01 => some ("Illegal Function".toList)
  | 0x02 => some ("Illegal Data Address".toList)
  | 0x03 => some ("Illegal Data Value".toList)
  | 0x04 => some ("Failure In Associated Device".toList)
  | 0x05 => some ("Acknowledge".toList)
  | 0x06 => some ("Busy, Rejected Message".toList)
  | 0x07 => some ("NAK - Negative Acknowledgement".toList)
  | 0x08 => some ("Memory Parity Error".toList)
  | 0x0A => some ("Gateway Path Unavailable".toList)
  | 0x0B => some ("Gateway Target Device Failed to respond".toList)
  | _ => none

/-- JavaScript array indexing `arr[i]` with a possibly negative index:
a negative index is an absent property, hence `undefined`. -/
def jsIndex {α : Type} (l : List α) (i : Int) : Option α :=
  if 0 ≤ i then l.get? i.toNat else none

/-- JavaScript `parseInt` applied to `arr[i]`-style operands: `undefined` or a
string without leading digits gives `NaN` (`none`), otherwise the leading digit run. -/
def jsParseInt : Option (List Char) → Option Nat
  | none => none
  | some s =>
    let digits := s.takeWhile (fun c => (digitVal c).isSome)
    if digits.isEmpty then none else parseDecAcc digits (some 0)

/-- What the error branch of every read callback reports. -/
inductive ErrReport where
  | desc (d : List Char)
  | raw (msg : List Char)
  deriving DecidableEq, Repr

/-- `const errdesc = MODUS_ERRNO[parseInt(err.message.split(' ')[-1])];
if (errdesc) error(errdesc); else error(err);` -/
def reportErr (msg : List Char) : ErrReport :=
  match jsParseInt (jsIndex (splitOnChar ' ' msg) (-1)) with
  | some n =>
    match MODUS_ERRNO n with
    | some d => ErrReport.desc d
    | none => ErrReport.raw msg
  | none => ErrReport.raw msg

/-- A group capability record, as built in the constructor's read callback. -/
structure GroupCap where
  id : Nat
  di : Nat
  dout : Nat
  ai : Nat
  ao : Nat
  serial : Nat
  deriving DecidableEq, Repr

/-- The success branch of the constructor's capability read for group slot `i`:
`bin = dec2bin(data.data[0]); ext = dec2bin(data.data[1]);` then
`parseInt(bin.slice(0,8), 2)` and friends. -/
def capDecode (i w1 w2 : Nat) : GroupCap :=
  let bin := dec2bin w1
  let ext := dec2bin w2
  { id := i + 1
    di := parseBin (bin.take 8)
    dout := parseBin ((bin.drop 8).take 8)
    ai := parseBin ((ext.drop 4).take 4)
    ao := parseBin ((ext.drop 8).take 8)
    serial := parseBin (ext.take 4) }

/-- `getState(id)`: `return this.state[id];`. -/
def getState (st : StateMap) (id : List Char) : Option JVal :=
  st id

/-- `set(id, value)` up to and including the single `writeCoil` call:
`none` means `validate` threw (no write at all); `some (addr, value)` means
exactly one `writeCoil(addr, value)` was issued, where `addr = none` encodes a
`NaN` address. -/
def set (st : StateMap) (id : List Char) (value : Bool) : Option (Option Int × Bool) :=
  if getState st id = none then none
  else
    let arr := splitOnChar '.' id
    let groupStr := substrLast (arr.getD 0 [])
    let g : Option Nat := jsStrToNum groupStr
    let n : Option Nat := (arr.get? 1).bind jsStrToNum
    match g, n with
    | some gv, some nv => some (some (((gv : Int) - 1) * 100 + ((nv : Int) - 1)), value)
    | _, _ => some (none, value)

/-- `parseInt(arr[i])` where `arr` is the bit array: an in-range element is a
binary digit, an out-of-range access is `undefined`, hence `NaN`. -/
def jsParseBit : Option Nat → JVal
  | some b => JVal.num b
  | none => JVal.nan

/-- `value.toString()` for the emitted update payload. -/
def jvalStr : JVal → List Char
  | JVal.num n => natDigits n
  | JVal.nan => "NaN".toList

/-- JavaScript `currentValue !== value` where `currentValue` may be `undefined`:
`undefined` differs from every number, and `NaN` differs from everything,
itself included. -/
def jsNeq : Option JVal → JVal → Bool
  | none, _ => true
  | some (JVal.num a), JVal.num b => a != b
  | some _, _ => true

/-- The body of one `storeState` loop iteration (the state store's conditional
update): look up, compare with `!==`, store, and emit only when the id had been
observed before. -/
def storeStep (st : StateMap) (id : List Char) (v : JVal) :
    StateMap × Option (List Char × List Char) :=
  if jsNeq (st id) v then
    (updateMap st id v, match st id with
      | none => none
      | some _ => some (id, jvalStr v))
  else (st, none)

/-- The `for (let i = 0; i < length; i++)` loop of `storeState`, iterating from
index `i` for `fuel` more steps. -/
def storeLoop (pre : List Char) (arr : List Nat) : Nat → Nat → StateMap →
    StateMap × List (List Char × List Char)
  | _, 0, st => (st, [])
  | i, fuel + 1, st =>
    let id := mkId pre (i + 1)
    let v := jsParseBit (arr.get? i)
    let p := storeStep st id v
    let rest := storeLoop pre arr (i + 1) fuel p.1
    (rest.1, p.2.toList ++ rest.2)

/-- `storeState(prefix, value, length = 16)` from the newer source. -/
def storeState (pre : List Char) (value len : Nat) (st : StateMap) :
    StateMap × List (List Char × List Char) :=
  storeLoop pre (dec2binArr value) 0 len st

/-- One iteration of the older `store` loop (`src/Board.js`): same comparison,
but the emission statement precedes the assignment. -/
def storeOldStep (st : StateMap) (id : List Char) (v : JVal) :
    StateMap × Option (List Char × List Char) :=
  if jsNeq (st id) v then
    (updateMap st id v, match st id with
      | none => none
      | some _ => some (id, jvalStr v))
  else (st, none)

/-- The loop of the older `store`. -/
def storeOldLoop (pre : List Char) (arr : List Nat) : Nat → Nat → StateMap →
    StateMap × List (List Char × List Char)
  | _, 0, st => (st, [])
  | i, fuel + 1, st =>
    let id := mkId pre (i + 1)
    let v := jsParseBit (arr.get? i)
    let p := storeOldStep st id v
    let rest := storeOldLoop pre arr (i + 1) fuel p.1
    (rest.1, p.2.toList ++ rest.2)

/-- `store(prefix, value, length = 16)` from the older `src/Board.js`. -/
def store (pre : List Char) (value len : Nat) (st : StateMap) :
    StateMap × List (List Char × List Char) :=
  storeOldLoop pre (dec2binArr value) 0 len st

/-- Result of one `readHoldingRegisters(start, 2, ...)` call. -/
inductive ReadResp where
  | err (msg : List Char)
  | ok (d0 d1 : Nat)
  deriving DecidableEq, Repr

/-- The callback body of `updateState` for one group: on error only the log runs;
on success `storeState('DI'+id, data[0], di)` then `storeState('DO'+id, data[1], do)`. -/
def updateStateGroup (gid di dout : Nat) (resp : ReadResp) (st : StateMap) :
    StateMap × List (List Char × List Char) :=
  match resp with
  | ReadResp.err _ => (st, [])
  | ReadResp.ok d0 d1 =>
    let p1 := storeState ("DI".toList ++ natDigits gid) d0 di st
    let p2 := storeState ("DO".toList ++ natDigits gid) d1 dout p1.1
    (p2.1, p1.2 ++ p2.2)

/-- `let countStart = [8, 103, 203];` in `updateCount`. -/
def countStart : List Nat := [8, 103, 203]

/-- The read issued by `updateCount` for group slot `i` with `di` inputs:
`readHoldingRegisters(countStart[i], group.di * 2, ...)` (a `none` base address
is the `undefined` of an out-of-table slot). -/
def countReadReq (i di : Nat) : Option Nat × Nat :=
  (countStart.get? i, di * 2)

/-- The `for (let j = 0; j < group.di; j++)` loop of `updateCount`'s success
callback: `this.counter[id] = data.data[j*2] + data.data[j*2+1];`. -/
def countLoop (pre : List Char) (data : List Nat) : Nat → Nat → StateMap → StateMap
  | _, 0, c => c
  | j, fuel + 1, c =>
    let id := mkId pre (j + 1)
    let v := match data.get? (j * 2), data.get? (j * 2 + 1) with
      | some x, some y => JVal.num (x + y)
      | _, _ => JVal.nan
    countLoop pre data (j + 1) fuel (updateMap c id v)

/-- The success callback of `updateCount` for one group. -/
def updateCountGroup (gid di : Nat) (data : List Nat) (c : StateMap) : StateMap :=
  countLoop ("DI".toList ++ natDigits gid) data 0 di c

/-- One event of the write-supervision protocol in `set(id, value, retries)`. -/
inductive WEvent where
  | write
  | verify (delay : Nat)
  deriving DecidableEq, Repr

/-- The retry skeleton of `set(id, value, retries)`: one `writeCoil` per call, and
for `retries < 5` a verification timer at `100 * (retries + 1)` ms whose callback
re-enters `set` with `retries + 1` exactly when `Boolean(getState(id)) !== value`.
`matchAt r` is the outcome of that comparison being a match at retry level `r`.
The fuel 6 is an upper bound on the remaining recursion depth (the guard
`retries < 5` stops the recursion before the fuel can run out). -/
def setTraceAux (matchAt : Nat → Bool) : Nat → Nat → List WEvent
  | 0, _ => []
  | fuel + 1, r =>
    WEvent.write ::
      (if r < 5 then
        WEvent.verify (100 * (r + 1)) ::
          (if matchAt r then [] else setTraceAux matchAt fuel (r + 1))
      else [])

/-- The full event trace of `set(id, value, retries)`. -/
def setTrace (matchAt : Nat → Bool) (r : Nat) : List WEvent :=
  setTraceAux matchAt 6 r

/-- Number of `writeCoil` calls in a trace. -/
def writeCount (l : List WEvent) : Nat :=
  (l.filter (fun e => e = WEvent.write)).length

/-- The scheduled verification delays of a trace, in order. -/
def verifyDelays (l : List WEvent) : List Nat :=
  l.filterMap (fun e => match e with
    | WEvent.verify d => some d
    | _ => none)

/-- The StateEntry invariant claimed by the spec: every cached value is 0 or 1. -/
def StateInvP (st : StateMap) : Prop :=
  ∀ k v, st k = some v → v = JVal.num 0 ∨ v = JVal.num 1

end Board

namespace Board

/-! ### Properties of the store loop -/

theorem storeStep_fst_other (st : StateMap) (id k : List Char) (v : JVal) (h : k ≠ id) :
    (storeStep st id v).1 k = st k := by
  unfold storeStep
  split
  · exact updateMap_other st id k v h
  · rfl

theorem storeLoop_frame (pre : List Char) (arr : List Nat) :
    ∀ fuel i st k, (∀ j, j < fuel → k ≠ mkId pre (i + j + 1)) →
      (storeLoop pre arr i fuel st).1 k = st k := by
  intro fuel
  induction fuel with
  | zero => intro i st k _; rfl
  | succ fuel ih =>
    intro i st k hk
    have hk' : ∀ j, j < fuel → k ≠ mkId pre (i + 1 + j + 1) := by
      intro j hj
      have h2 := hk (j + 1) (by omega)
      have e : i + (j + 1) + 1 = i + 1 + j + 1 := by omega
      rw [e] at h2
      exact h2
    have hk0 : k ≠ mkId pre (i + 1) := by
      have h2 := hk 0 (by omega)
      simpa using h2
    show (storeLoop pre arr (i + 1) fuel
      (storeStep st (mkId pre (i + 1)) (jsParseBit (arr.get? i))).1).1 k = st k
    rw [ih (i + 1) _ k hk']
    exact storeStep_fst_other _ _ _ _ hk0

theorem storeLoop_get (pre : List Char) (arr : List Nat) :
    ∀ fuel i st j0, j0 < fuel →
      (storeLoop pre arr i fuel st).1 (mkId pre (i + j0 + 1)) =
        (if jsNeq (st (mkId pre (i + j0 + 1))) (jsParseBit (arr.get? (i + j0))) then
          some (jsParseBit (arr.get? (i + j0)))
        else st (mkId pre (i + j0 + 1))) := by
  intro fuel
  induction fuel with
  | zero => intro i st j0 h; omega
  | succ fuel ih =>
    intro i st j0 hj0
    cases j0 with
    | zero =>
      simp only [Nat.add_zero]
      have hfr : ∀ j, j < fuel → mkId pre (i + 1) ≠ mkId pre (i + 1 + j + 1) := by
        intro j hj hcontra
        have := mkId_inj pre hcontra
        omega
      show (storeLoop pre arr (i + 1) fuel
        (storeStep st (mkId pre (i + 1)) (jsParseBit (arr.get? i))).1).1
          (mkId pre (i + 1)) = _
      rw [storeLoop_frame pre arr fuel (i + 1) _ (mkId pre (i + 1)) hfr]
      unfold storeStep
      by_cases hb : jsNeq (st (mkId pre (i + 1))) (jsParseBit (arr.get? i)) = true
      · rw [if_pos hb, if_pos hb]
        exact updateMap_self st _ _
      · rw [if_neg hb, if_neg hb]
    | succ j =>
      have harith1 : i + (j + 1) + 1 = (i + 1) + j + 1 := by omega
      have harith2 : i + (j + 1) = (i + 1) + j := by omega
      rw [harith1, harith2]
      show (storeLoop pre arr (i + 1) fuel
        (storeStep st (mkId pre (i + 1)) (jsParseBit (arr.get? i))).1).1
          (mkId pre (i + 1 + j + 1)) = _
      rw [ih (i + 1) _ j (by omega)]
      have hother : mkId pre (i + 1 + j + 1) ≠ mkId pre (i + 1) := by
        intro hcontra
        have := mkId_inj pre hcontra
        omega
      rw [storeStep_fst_other st (mkId pre (i + 1)) _ _ hother]

theorem StateInvP_update (st : StateMap) (id : List Char) (v : JVal)
    (hv : v = JVal.num 0 ∨ v = JVal.num 1) (hst : StateInvP st) :
    StateInvP (updateMap st id v) := by
  intro k w hw
  by_cases hk : k = id
  · subst hk
    rw [updateMap_self] at hw
    cases hw
    exact hv
  · rw [updateMap_other st id k v hk] at hw
    exact hst k w hw

theorem storeStep_inv (st : StateMap) (id : List Char) (v : JVal)
    (hv : v = JVal.num 0 ∨ v = JVal.num 1) (hst : StateInvP st) :
    StateInvP (storeStep st id v).1 := by
  unfold storeStep
  split
  · exact StateInvP_update st id v hv hst
  · exact hst

theorem storeLoop_inv (pre : List Char) (arr : List Nat)
    (harr : ∀ b, b ∈ arr → b ≤ 1) :
    ∀ fuel i st, i + fuel ≤ arr.length → StateInvP st →
      StateInvP (storeLoop pre arr i fuel st).1 := by
  intro fuel
  induction fuel with
  | zero => intro i st _ hst; exact hst
  | succ fuel ih =>
    intro i st hlen hst
    show StateInvP (storeLoop pre arr (i + 1) fuel
      (storeStep st (mkId pre (i + 1)) (jsParseBit (arr.get? i))).1).1
    refine ih (i + 1) _ (by omega) ?_
    refine storeStep_inv _ _ _ ?_ hst
    have hlt : i < arr.length := by omega
    cases hget : arr.get? i with
    | none =>
      rw [List.get?_eq_none] at hget
      omega
    | some b =>
      have hmem : b ∈ arr := List.get?_mem hget
      have hble := harr b hmem
      unfold jsParseBit
      interval_cases b
      · exact Or.inl rfl
      · exact Or.inr rfl

/-! ### Properties of the counter loop -/

theorem countLoop_frame (pre : List Char) (data : List Nat) :
    ∀ fuel j st k, (∀ m, m < fuel → k ≠ mkId pre (j + m + 1)) →
      countLoop pre data j fuel st k = st k := by
  intro fuel
  induction fuel with
  | zero => intro j st k _; rfl
  | succ fuel ih =>
    intro j st k hk
    have hk' : ∀ m, m < fuel → k ≠ mkId pre (j + 1 + m + 1) := by
      intro m hm
      have h2 := hk (m + 1) (by omega)
      have e : j + (m + 1) + 1 = j + 1 + m + 1 := by omega
      rw [e] at h2
      exact h2
    have hk0 : k ≠ mkId pre (j + 1) := by
      have h2 := hk 0 (by omega)
      simpa using h2
    show countLoop pre data (j + 1) fuel (updateMap st (mkId pre (j + 1)) _) k = st k
    rw [ih (j + 1) _ k hk']
    exact updateMap_other _ _ _ _ hk0

theorem countLoop_get (pre : List Char) (data : List Nat) :
    ∀ fuel j st j0, j0 < fuel →
      countLoop pre data j fuel st (mkId pre (j + j0 + 1)) =
        some (match data.get? ((j + j0) * 2), data.get? ((j + j0) * 2 + 1) with
          | some x, some y => JVal.num (x + y)
          | _, _ => JVal.nan) := by
  intro fuel
  induction fuel with
  | zero => intro j st j0 h; omega
  | succ fuel ih =>
    intro j st j0 hj0
    cases j0 with
    | zero =>
      simp only [Nat.add_zero]
      have hfr : ∀ m, m < fuel → mkId pre (j + 1) ≠ mkId pre (j + 1 + m + 1) := by
        intro m hm hcontra
        have := mkId_inj pre hcontra
        omega
      show countLoop pre data (j + 1) fuel (updateMap st (mkId pre (j + 1)) _)
          (mkId pre (j + 1)) = _
      rw [countLoop_frame pre data fuel (j + 1) _ (mkId pre (j + 1)) hfr]
      exact updateMap_self st _ _
    | succ m =>
      have harith1 : j + (m + 1) + 1 = (j + 1) + m + 1 := by omega
      have harith2 : j + (m + 1) = (j + 1) + m := by omega
      rw [harith1, harith2]
      show countLoop pre data (j + 1) fuel (updateMap st (mkId pre (j + 1)) _)
          (mkId pre (j + 1 + m + 1)) = _
      exact ih (j + 1) _ m (by omega)

/-! ### Old store = new storeState -/

theorem storeOldStep_eq (st : StateMap) (id : List Char) (v : JVal) :
    storeOldStep st id v = storeStep st id v := rfl

theorem storeOldLoop_eq (pre : List Char) (arr : List Nat) :
    ∀ fuel i st, storeOldLoop pre arr i fuel st = storeLoop pre arr i fuel st := by
  intro fuel
  induction fuel with
  | zero => intro i st; rfl
  | succ fuel ih =>
    intro i st
    simp only [storeOldLoop, storeLoop, storeOldStep_eq]
    rw [ih]

/-! ### Write-retry trace counting -/

theorem writeCount_nil : writeCount [] = 0 := rfl

theorem writeCount_cons_write (l : List WEvent) :
    writeCount (WEvent.write :: l) = 1 + writeCount l := by
  simp [writeCount, List.filter]
  omega

theorem writeCount_cons_verify (d : Nat) (l : List WEvent) :
    writeCount (WEvent.verify d :: l) = writeCount l := by
  simp [writeCount, List.filter]

theorem writeCount_setTraceAux_le (matchAt : Nat → Bool) :
    ∀ fuel r, writeCount (setTraceAux matchAt fuel r) ≤ fuel := by
  intro fuel
  induction fuel with
  | zero => intro r; simp [setTraceAux, writeCount_nil]
  | succ fuel ih =>
    intro r
    unfold setTraceAux
    rw [writeCount_cons_write]
    by_cases h5 : r < 5
    · rw [if_pos h5, writeCount_cons_verify]
      by_cases hm : matchAt r
      · rw [if_pos hm, writeCount_nil]
        omega
      · rw [if_neg hm]
        have := ih (r + 1)
        omega
    · rw [if_neg h5, writeCount_nil]
      omega

end Board

/-! ### Further small facts used by the claim theorems -/

theorem get?_eq_some_getD {α : Type} (l : List α) (i : Nat) (d : α) (h : i < l.length) :
    l.get? i = some (l.getD i d) := by
  rw [List.getD_eq_getElem?_getD, List.get?_eq_getElem?, List.getElem?_eq_getElem h]
  rfl

theorem dec2binArr_length (n : Nat) : (dec2binArr n).length = 16 := by
  simp [dec2binArr, dec2bin_length]

theorem natDigits_single (g : Nat) (h1 : 1 ≤ g) (h9 : g ≤ 9) :
    natDigits g = [digitChar g] := by
  interval_cases g <;> rfl

theorem natDigitsAux_mem (fuel : Nat) :
    ∀ n c, c ∈ natDigitsAux fuel n → ∃ d, d < 10 ∧ c = digitChar d := by
  induction fuel with
  | zero => intro n c hc; simp [natDigitsAux] at hc
  | succ fuel ih =>
    intro n c hc
    by_cases h0 : n = 0
    · simp [natDigitsAux, h0] at hc
    · simp only [natDigitsAux, h0, if_false, List.mem_append, List.mem_singleton] at hc
      rcases hc with hc | hc
      · exact ih _ _ hc
      · exact ⟨n % 10, Nat.mod_lt _ (by omega), hc⟩

theorem dot_not_mem_natDigits (n : Nat) : '.' ∉ natDigits n := by
  intro hmem
  by_cases h0 : n = 0
  · rw [natDigits, if_pos h0] at hmem
    exact absurd (List.mem_singleton.mp hmem) (by decide)
  · rw [natDigits, if_neg h0] at hmem
    obtain ⟨d, hd, hc⟩ := natDigitsAux_mem n n '.' hmem
    interval_cases d <;> exact absurd hc (by decide)

theorem natDigits_ne_nil (n : Nat) : natDigits n ≠ [] := by
  by_cases h0 : n = 0
  · simp [natDigits, h0]
  · rw [natDigits, if_neg h0]
    exact natDigitsAux_ne_nil n n (Nat.pos_of_ne_zero h0) le_rfl

namespace Board

theorem jsNeq_eq_false_iff (x : Option JVal) (n : Nat) :
    jsNeq x (JVal.num n) = false ↔ x = some (JVal.num n) := by
  cases x with
  | none => simp [jsNeq]
  | some w =>
    cases w with
    | num a => simp [jsNeq, bne_eq_false_iff_eq]
    | nan => simp [jsNeq]

theorem parseBin_reverse_take (l : List Nat) (k : Nat) :
    parseBin (l.reverse.take k) = evalLE (l.drop (l.length - k)) := by
  rw [List.take_reverse, parseBin_reverse]

theorem parseBin_reverse_drop_take (l : List Nat) (a b : Nat) :
    parseBin ((l.reverse.drop a).take b) =
      evalLE ((l.take (l.length - a)).drop ((l.take (l.length - a)).length - b)) := by
  rw [List.drop_reverse, List.take_reverse, parseBin_reverse]

end Board

namespace Board

/-! ### Claim theorems -/

/-- The capability split asserted by the specification for claim C1, read with
bit 0 as the least-significant bit of the word: diCount from bits 0-7 and
doCount from bits 8-15 of the first word; serialCount from bits 0-3, aiCount
from bits 4-7 and aoCount from bits 8-15 of the second word. Stated from the
spec wording, to be compared with `capDecode`. -/
def capClaimLSB (i w1 w2 : Nat) : Prop :=
  (capDecode i w1 w2).di = w1 % 2 ^ 8 ∧
  (capDecode i w1 w2).dout = w1 / 2 ^ 8 % 2 ^ 8 ∧
  (capDecode i w1 w2).serial = w2 % 2 ^ 4 ∧
  (capDecode i w1 w2).ai = w2 / 2 ^ 4 % 2 ^ 4 ∧
  (capDecode i w1 w2).ao = w2 / 2 ^ 8 % 2 ^ 8

/-- C1 (counterexample): for capability words (1, 1) the code decodes
diCount = 0, not 1: `bin.slice(0, 8)` is the most-significant byte of the word,
so the counts do not sit at the bit positions the claim assigns them under the
bit-0-is-LSB codec contract. -/
theorem capDecode_lsb_claim_false : ¬ capClaimLSB 0 1 1 := by
  unfold capClaimLSB
  decide

/-- C1 (amended): capability decoding as the code implements it: diCount is the
high byte (bits 8-15) of the first word and doCount the low byte (bits 0-7);
serialCount is bits 12-15, aiCount bits 8-11 and aoCount bits 0-7 of the
second word. -/
theorem capDecode_eq_bytes (i w1 w2 : Nat) (h1 : w1 < 2 ^ 16) (h2 : w2 < 2 ^ 16) :
    capDecode i w1 w2 =
      { id := i + 1, di := w1 / 2 ^ 8, dout := w1 % 2 ^ 8,
        ai := w2 / 2 ^ 8 % 2 ^ 4, ao := w2 % 2 ^ 8, serial := w2 / 2 ^ 12 } := by
  have h1n : w1 < 65536 := by norm_num at h1; exact h1
  have h2n : w2 < 65536 := by norm_num at h2; exact h2
  have hdi : parseBin ((bitsLE 16 w1).reverse.take 8) = w1 / 2 ^ 8 := by
    rw [parseBin_reverse_take, bitsLE_length, show (16 : Nat) - 8 = 8 from rfl,
      bitsLE_drop, show (16 : Nat) - 8 = 8 from rfl, evalLE_bitsLE]
    norm_num
    omega
  have hdout : parseBin (((bitsLE 16 w1).reverse.drop 8).take 8) = w1 % 2 ^ 8 := by
    rw [parseBin_reverse_drop_take, bitsLE_length, show (16 : Nat) - 8 = 8 from rfl,
      bitsLE_take 8 16 w1 (by norm_num), bitsLE_length,
      show (8 : Nat) - 8 = 0 from rfl, List.drop_zero, evalLE_bitsLE]
  have hai : parseBin (((bitsLE 16 w2).reverse.drop 4).take 4) = w2 / 2 ^ 8 % 2 ^ 4 := by
    rw [parseBin_reverse_drop_take, bitsLE_length, show (16 : Nat) - 4 = 12 from rfl,
      bitsLE_take 12 16 w2 (by norm_num), bitsLE_length,
      show (12 : Nat) - 4 = 8 from rfl, bitsLE_drop,
      show (12 : Nat) - 8 = 4 from rfl, evalLE_bitsLE]
  have hao : parseBin (((bitsLE 16 w2).reverse.drop 8).take 8) = w2 % 2 ^ 8 := by
    rw [parseBin_reverse_drop_take, bitsLE_length, show (16 : Nat) - 8 = 8 from rfl,
      bitsLE_take 8 16 w2 (by norm_num), bitsLE_length,
      show (8 : Nat) - 8 = 0 from rfl, List.drop_zero, evalLE_bitsLE]
  have hserial : parseBin ((bitsLE 16 w2).reverse.take 4) = w2 / 2 ^ 12 := by
    rw [parseBin_reverse_take, bitsLE_length, show (16 : Nat) - 4 = 12 from rfl,
      bitsLE_drop, show (16 : Nat) - 12 = 4 from rfl, evalLE_bitsLE]
    norm_num
    omega
  simp only [capDecode, dec2bin_eq w1 h1, dec2bin_eq w2 h2, GroupCap.mk.injEq]
  exact ⟨trivial, hdi, hdout, hai, hao, hserial⟩

/-- C1 (witness): word 1 = 0x1100 gives 17 digital inputs and 0 outputs,
word 2 = 0x0101 gives 1 analog input, 1 analog output, 0 serial ports. -/
theorem capDecode_eq_bytes_witness :
    capDecode 0 4352 257 = { id := 1, di := 17, dout := 0, ai := 1, ao := 1, serial := 0 } := by
  rw [capDecode_eq_bytes 0 4352 257 (by norm_num) (by norm_num)]
  decide

/-- C2 (counterexample): for the known id DO12.1 the claim's parse
(prefix, group, index) = (DO, 12, 1) demands a write to coil
(12-1)*100 + (1-1) = 1100, but the code takes only the last character of the
part before the dot (`substr(length-1, 1)`), so the single write goes to coil
(2-1)*100 + 0 = 100. -/
theorem set_multidigit_group_cex :
    set (updateMap emptyMap ("DO12.1".toList) (JVal.num 1)) ("DO12.1".toList) true
      = some (some 100, true) ∧ (100 : Int) ≠ 1100 := by
  constructor
  · decide
  · decide

/-- C2 (amended): `set` on an id never observed in the state cache fails
validation and issues no coil write; on a known id of the form
  prefix ++ digits(g) ++ "." ++ digits(index)
with a dot-free prefix and a single-digit group g (1..9) it issues exactly one
immediate coil write of the requested value to address (g-1)*100 + (index-1).
(For a multi-digit group only the last digit of the group field is used; see
the counterexample.) -/
theorem set_coil_address (st : StateMap) (id : List Char) (v : Bool) :
    (st id = none → set st id v = none) ∧
    (∀ pre g idx, id = mkId (pre ++ natDigits g) idx → '.' ∉ pre → 1 ≤ g → g ≤ 9 →
      st id ≠ none →
      set st id v = some (some (((g : Int) - 1) * 100 + ((idx : Int) - 1)), v)) := by
  constructor
  · intro h
    have h' : getState st id = none := h
    unfold set
    rw [if_pos h']
  · intro pre g idx hid hdot hg1 hg9 hknown
    subst hid
    have h' : ¬(getState st (mkId (pre ++ natDigits g) idx) = none) := hknown
    have hnodot : '.' ∉ pre ++ natDigits g := by
      intro hmem
      rcases List.mem_append.mp hmem with hm | hm
      · exact hdot hm
      · exact dot_not_mem_natDigits g hm
    have hsplit : splitOnChar '.' ((pre ++ natDigits g) ++ '.' :: natDigits idx)
        = [pre ++ natDigits g, natDigits idx] := by
      rw [splitOnChar_first '.' _ _ hnodot,
        splitOnChar_no_sep '.' _ (dot_not_mem_natDigits idx)]
    have hgroup : jsStrToNum (substrLast (pre ++ natDigits g)) = some g := by
      unfold substrLast
      rw [List.getLast?_append_of_ne_nil pre (natDigits_ne_nil g),
        natDigits_single g hg1 hg9]
      show jsStrToNum [digitChar g] = some g
      rw [← natDigits_single g hg1 hg9, jsStrToNum_natDigits]
    unfold set
    rw [if_neg h']
    simp only [mkId, hsplit]
    simp only [List.getD_cons_zero, List.get?_cons_succ, List.get?_cons_zero,
      Option.some_bind, hgroup, jsStrToNum_natDigits]

/-- C2 (witness): the known id DO3.2 with value true produces one write to coil
(3-1)*100 + (2-1) = 201. -/
theorem set_coil_address_witness :
    set (updateMap emptyMap ("DO3.2".toList) (JVal.num 0)) ("DO3.2".toList) true
      = some (some 201, true) := by
  have h := (set_coil_address (updateMap emptyMap ("DO3.2".toList) (JVal.num 0))
    ("DO3.2".toList) true).2 ("DO".toList) 3 2 (by decide) (by decide) (by decide)
    (by decide) (by decide)
  simpa using h

/-- C3: the write-retry protocol of `set(id, value, retries)`: never more than 6
coil writes; when the desired value never appears in the cache (every
verification sees a mismatch) there are exactly 6 writes and the verification
delays are 100, 200, 300, 400, 500 ms in order; a verification that finds the
cached value matching issues no further write. -/
theorem set_retry_protocol (matchAt : Nat → Bool) :
    writeCount (setTrace matchAt 0) ≤ 6 ∧
    ((∀ k, matchAt k = false) →
      writeCount (setTrace matchAt 0) = 6 ∧
      verifyDelays (setTrace matchAt 0) = [100, 200, 300, 400, 500]) ∧
    (∀ r, matchAt r = true → writeCount (setTrace matchAt r) = 1) := by
  refine ⟨writeCount_setTraceAux_le matchAt 6 0, ?_, ?_⟩
  · intro hm
    have e : setTrace matchAt 0 = [WEvent.write, WEvent.verify 100,
        WEvent.write, WEvent.verify 200, WEvent.write, WEvent.verify 300,
        WEvent.write, WEvent.verify 400, WEvent.write, WEvent.verify 500,
        WEvent.write] := by
      simp [setTrace, setTraceAux, hm]
    rw [e]
    constructor
    · rfl
    · rfl
  · intro r hr
    by_cases h5 : r < 5
    · have e : setTrace matchAt r = [WEvent.write, WEvent.verify (100 * (r + 1))] := by
        simp [setTrace, setTraceAux, h5, hr]
      rw [e]
      rfl
    · have e : setTrace matchAt r = [WEvent.write] := by
        simp [setTrace, setTraceAux, h5]
      rw [e]
      rfl

/-- C3 (witness): with a never-matching cache the trace from retries = 0 has
exactly 6 writes and delays 100..500. -/
theorem set_retry_protocol_witness :
    writeCount (setTrace (fun _ => false) 0) = 6 ∧
    verifyDelays (setTrace (fun _ => false) 0) = [100, 200, 300, 400, 500] :=
  (set_retry_protocol (fun _ => false)).2.1 (fun _ => rfl)

/-- C4 (counterexample): a cached `NaN` (reachable when a poll's length exceeds
16, see the C8 counterexample) breaks the claimed no-op-on-equal/idempotence:
the cache already holds exactly the value being stored, yet the conditional
update stores again and emits an update notification, because `NaN !== NaN`. -/
theorem storeStep_nan_cex :
    (updateMap emptyMap ("DI1.17".toList) JVal.nan) ("DI1.17".toList) = some JVal.nan ∧
    (storeStep (updateMap emptyMap ("DI1.17".toList) JVal.nan) ("DI1.17".toList)
      JVal.nan).2 = some ("DI1.17".toList, "NaN".toList) := by
  constructor
  · decide
  · decide

/-- C4 (amended): for number values the conditional update behaves as claimed:
absent id stores without emitting; present-with-different-value stores and
emits (id, value as string); present-with-equal-value is a strict no-op; and a
second call with the same number value never emits. (For `NaN` the equal case
re-stores and re-emits; see the counterexample.) -/
theorem storeStep_change_detection (st : StateMap) (id : List Char) (n : Nat) :
    (st id = none → storeStep st id (JVal.num n) = (updateMap st id (JVal.num n), none)) ∧
    (∀ w, st id = some w → w ≠ JVal.num n →
      storeStep st id (JVal.num n) = (updateMap st id (JVal.num n), some (id, natDigits n))) ∧
    (st id = some (JVal.num n) → storeStep st id (JVal.num n) = (st, none)) ∧
    (storeStep (storeStep st id (JVal.num n)).1 id (JVal.num n)).2 = none := by
  refine ⟨?_, ?_, ?_, ?_⟩
  · intro h
    unfold storeStep
    rw [h]
    rfl
  · intro w hw hne
    have hb : jsNeq (some w) (JVal.num n) = true := by
      cases w with
      | num a =>
        have ha : a ≠ n := fun hc => hne (by rw [hc])
        simp [jsNeq, bne_iff_ne, ha]
      | nan => rfl
    unfold storeStep
    rw [hw, if_pos hb]
    rfl
  · intro h
    unfold storeStep
    rw [h]
    simp [jsNeq]
  · cases hb : jsNeq (st id) (JVal.num n) with
    | true =>
      have h1 : (storeStep st id (JVal.num n)).1 = updateMap st id (JVal.num n) := by
        unfold storeStep
        rw [if_pos hb]
      rw [h1]
      unfold storeStep
      rw [updateMap_self st id (JVal.num n)]
      simp [jsNeq]
    | false =>
      have h1 : (storeStep st id (JVal.num n)).1 = st := by
        unfold storeStep
        rw [if_neg (by simp [hb])]
      rw [h1]
      unfold storeStep
      rw [if_neg (by simp [hb])]

/-- C4 (witness): first observation of DO1.1 stores 1 without emitting, and a
repeated store of the same value is a no-op. -/
theorem storeStep_change_detection_witness :
    storeStep emptyMap ("DO1.1".toList) (JVal.num 1)
      = (updateMap emptyMap ("DO1.1".toList) (JVal.num 1), none) ∧
    storeStep (updateMap emptyMap ("DO1.1".toList) (JVal.num 1)) ("DO1.1".toList)
      (JVal.num 1) = (updateMap emptyMap ("DO1.1".toList) (JVal.num 1), none) := by
  constructor
  · exact (storeStep_change_detection emptyMap ("DO1.1".toList) 1).1 rfl
  · exact (storeStep_change_detection (updateMap emptyMap ("DO1.1".toList) (JVal.num 1))
      ("DO1.1".toList) 1).2.2.1 (by decide)

/-- C5: for every 16-bit word the LSB-first bit array built by `dec2bin` plus
split/reverse has bit 0 = v mod 2 and bit 15 = the most significant bit, and
`storeState` stores bit i under point index i + 1. -/
theorem decode_bits_lsb_first (pre : List Char) (v : Nat) (h : v < 2 ^ 16) :
    (dec2binArr v).getD 0 0 = v % 2 ∧
    (dec2binArr v).getD 15 0 = v / 2 ^ 15 ∧
    (∀ i, i < 16 → (storeState pre v 16 emptyMap).1 (mkId pre (i + 1)) =
      some (JVal.num ((dec2binArr v).getD i 0))) := by
  have harr := dec2binArr_eq v h
  refine ⟨?_, ?_, ?_⟩
  · rw [harr, bitsLE_getD 16 v 0 (by norm_num)]
    norm_num
  · have h' : v < 65536 := by norm_num at h; exact h
    rw [harr, bitsLE_getD 16 v 15 (by norm_num)]
    norm_num
    omega
  · intro i hi
    unfold storeState
    have hg := storeLoop_get pre (dec2binArr v) 16 0 emptyMap i hi
    simp only [Nat.zero_add] at hg
    rw [hg]
    have hget : (dec2binArr v).get? i = some ((dec2binArr v).getD i 0) :=
      get?_eq_some_getD _ i 0 (by rw [dec2binArr_length]; omega)
    rw [hget]
    simp [emptyMap, jsNeq, jsParseBit]

/-- C5 (witness): for the word 5 the decoded bits are 1,0,1,0,... and after a
16-bit store the point with index 3 holds bit 2. -/
theorem decode_bits_lsb_first_witness :
    (dec2binArr 5).getD 0 0 = 5 % 2 ∧
    (dec2binArr 5).getD 15 0 = 5 / 2 ^ 15 ∧
    (storeState ("DI1".toList) 5 16 emptyMap).1 (mkId ("DI1".toList) 3)
      = some (JVal.num ((dec2binArr 5).getD 2 0)) := by
  have h := decode_bits_lsb_first ("DI1".toList) 5 (by norm_num)
  exact ⟨h.1, h.2.1, h.2.2 2 (by norm_num)⟩

/-- C6 (code bug): the Modbus exception table does contain the claimed
descriptions (code 2 maps to "Illegal Data Address"), but every transport error
is reported raw: `err.message.split(' ')[-1]` is `undefined` in JavaScript
(arrays have no negative indexing), `parseInt(undefined)` is `NaN`, and the
table lookup at `NaN` is `undefined`, so the recognized-code branch is
unreachable for every message. -/
theorem modbus_error_always_raw :
    MODUS_ERRNO 2 = some ("Illegal Data Address".toList) ∧
    reportErr ("Modbus exception 2".toList) = ErrReport.raw ("Modbus exception 2".toList) ∧
    (∀ msg, reportErr msg = ErrReport.raw msg) := by
  refine ⟨rfl, by decide, ?_⟩
  intro msg
  unfold reportErr jsIndex
  rw [if_neg (by decide)]
  rfl

/-- C7: `updateCount` reads `di * 2` registers from the per-slot base in the
constant table [8, 103, 203], and for each input j < di stores under key
DI(group).(j+1) the two consecutive words combined by integer addition. -/
theorem updateCount_reads_and_sums (gid di : Nat) (data : List Nat) (c : StateMap)
    (hlen : data.length = di * 2) :
    countStart = [8, 103, 203] ∧
    (∀ i, countReadReq i di = (countStart.get? i, di * 2)) ∧
    (∀ j, j < di →
      updateCountGroup gid di data c (mkId ("DI".toList ++ natDigits gid) (j + 1)) =
        some (JVal.num (data.getD (j * 2) 0 + data.getD (j * 2 + 1) 0))) := by
  refine ⟨rfl, fun i => rfl, ?_⟩
  intro j hj
  unfold updateCountGroup
  have hg := countLoop_get ("DI".toList ++ natDigits gid) data di 0 c j hj
  simp only [Nat.zero_add] at hg
  rw [hg]
  rw [get?_eq_some_getD data (j * 2) 0 (by omega),
    get?_eq_some_getD data (j * 2 + 1) 0 (by omega)]

/-- C7 (witness): group 1 with 2 inputs and register data [1, 2, 3, 4]: the read
request for slot 0 is (base 8, count 4) and DI1.2 stores 3 + 4 = 7. -/
theorem updateCount_reads_and_sums_witness :
    countReadReq 0 2 = (some 8, 4) ∧
    updateCountGroup 1 2 [1, 2, 3, 4] emptyMap (mkId ("DI".toList ++ natDigits 1) 2)
      = some (JVal.num 7) := by
  have h := updateCount_reads_and_sums 1 2 [1, 2, 3, 4] emptyMap rfl
  refine ⟨h.2.1 0, ?_⟩
  have h2 := h.2.2 1 (by norm_num)
  simpa using h2

/-- C8 (counterexample): a capability word of 0x1100 reports di = 17; polling
that group then stores `NaN` (not 0 or 1) under DI1.17, because bit index 16 of
the 16-element bit array is `undefined` and `parseInt(undefined)` is `NaN`. -/
theorem state_values_nan_cex :
    (capDecode 0 4352 0).di = 17 ∧
    (updateStateGroup 1 17 0 (ReadResp.ok 0 0) emptyMap).1
      (mkId ("DI".toList ++ natDigits 1) 17) = some JVal.nan ∧
    ¬ StateInvP (updateStateGroup 1 17 0 (ReadResp.ok 0 0) emptyMap).1 := by
  refine ⟨by decide, by decide, ?_⟩
  intro hinv
  have h := hinv (mkId ("DI".toList ++ natDigits 1) 17) JVal.nan (by decide)
  rcases h with h | h <;> exact JVal.noConfusion h

/-- C8 (amended): as long as every group's stored lengths are at most 16 (the
width of the decoded bit array), every poll callback preserves the invariant
that all cached state values are 0 or 1. -/
theorem state_values_boolean_of_bounded (gid di dout : Nat) (resp : ReadResp)
    (st : StateMap) (hdi : di ≤ 16) (hdout : dout ≤ 16) (hst : StateInvP st) :
    StateInvP (updateStateGroup gid di dout resp st).1 := by
  cases resp with
  | err m => exact hst
  | ok d0 d1 =>
    show StateInvP (storeState ("DO".toList ++ natDigits gid) d1 dout
      (storeState ("DI".toList ++ natDigits gid) d0 di st).1).1
    unfold storeState
    refine storeLoop_inv _ _ (fun b hb => dec2binArr_mem_le_one d1 b hb) dout 0 _ ?_ ?_
    · rw [dec2binArr_length]
      omega
    · refine storeLoop_inv _ _ (fun b hb => dec2binArr_mem_le_one d0 b hb) di 0 _ ?_ hst
      rw [dec2binArr_length]
      omega

/-- C8 (witness): a poll of a group with 16 inputs and 16 outputs starting from
the empty cache leaves only 0/1 values. -/
theorem state_values_boolean_of_bounded_witness :
    StateInvP (updateStateGroup 1 16 16 (ReadResp.ok 5 65535) emptyMap).1 :=
  state_values_boolean_of_bounded 1 16 16 (ReadResp.ok 5 65535) emptyMap
    (by norm_num) (by norm_num) (fun k v h => Option.noConfusion h)

/-- C9: when the per-group read of `updateState` reports a transport error, the
callback leaves every key of the state cache unchanged and emits nothing. -/
theorem updateState_error_frame (gid di dout : Nat) (msg : List Char) (st : StateMap) :
    (∀ k, (updateStateGroup gid di dout (ReadResp.err msg) st).1 k = st k) ∧
    (updateStateGroup gid di dout (ReadResp.err msg) st).2 = [] :=
  ⟨fun _ => rfl, rfl⟩

/-- C10: the older `store` (src/Board.js) and the newer `storeState`
(src/unnamed/part_000) are equivalent: from the same cache they produce the
same final stored values and the same ordered update notifications with the
same (id, value-as-string) payloads. The only textual difference is that the
old loop emits before assigning while the new one assigns before emitting,
which changes neither the final map nor the emitted sequence. -/
theorem store_old_new_equiv (pre : List Char) (value len : Nat) (st : StateMap) :
    store pre value len st = storeState pre value len st :=
  storeOldLoop_eq pre (dec2binArr value) len 0 st

end Board
